import Mathlib

/-!
Shallow embedding of the reconciliation core of the `seller-apis` repository
(src/seller.py — marketplace A, Ozon; src/market.py — marketplace B,
Yandex.Market) and proofs about it.

Conventions of the embedding:
* Python strings are Lean `String`s; snapshot records (`watch_remnants`
  rows) become the structure `Watch` whose fields transliterate the Russian
  keys of the source (`Код` = `kod`, `Количество` = `kolvo`, `Цена` = `cena`).
  The source applies `str(...)` to every field it reads, so fields are
  modelled as the resulting strings.
* Python list mutation (`offer_ids.remove(...)`) is modelled by explicit
  state passing: a function that mutates its argument list additionally
  returns the final value of that list.
* Fallible code (`int(...)` raising `ValueError`, `range(..., 0)` raising
  `ValueError`) returns `Option`: `none` models the raised exception.
* `int(text)` (base-10 parse of a string) is modelled by `pyInt?` on its
  documented core: optional surrounding ASCII whitespace, optional sign,
  then a non-empty run of ASCII digits; anything else fails.
-/

/-- A row of the distributor snapshot (`watch_remnants`); fields hold the
`str(...)` of the row values the source reads. -/
structure Watch where
  kod : String
  kolvo : String
  cena : String
deriving DecidableEq

/-- Value of a run of ASCII digit characters read base 10. -/
def digitsToNat (cs : List Char) : Nat :=
  cs.foldl (fun a c => a * 10 + (c.toNat - 48)) 0

/-- Model of Python `int(text)` on its documented core: strip surrounding
ASCII whitespace, allow one optional sign, then require a non-empty run of
ASCII digits; everything else raises `ValueError` (here: `none`). -/
def pyInt? (s : String) : Option Int :=
  let cs := ((s.toList.dropWhile Char.isWhitespace).reverse.dropWhile
    Char.isWhitespace).reverse
  match cs with
  | '-' :: rest =>
      if rest ≠ [] ∧ rest.all Char.isDigit then some (-(digitsToNat rest : Int))
      else none
  | '+' :: rest =>
      if rest ≠ [] ∧ rest.all Char.isDigit then some (digitsToNat rest : Int)
      else none
  | rest =>
      if rest ≠ [] ∧ rest.all Char.isDigit then some (digitsToNat rest : Int)
      else none

/-- The quantity policy shared verbatim by `seller.create_stocks` and
`market.create_stocks`: `">10"` means 100, `"1"` means 0, anything else is
parsed with `int(...)`. -/
def normalizeQuantity (count : String) : Option Int :=
  if count = ">10" then some 100
  else if count = "1" then some 0
  else pyInt? count

/-- `seller.price_conversion`: `re.sub("[^0-9]", "", price.split(".")[0])` —
keep the text before the first decimal point, then keep only ASCII digits. -/
def price_conversion (price : String) : String :=
  String.mk ((price.toList.takeWhile (fun c => c ≠ '.')).filter Char.isDigit)

/-- An element of the list built by `seller.create_stocks`:
`{"offer_id": ..., "stock": ...}`. -/
structure StockS where
  offer_id : String
  stock : Int
deriving DecidableEq

/-- The single entry of the `items` list of a `market.create_stocks` record:
`{"count": ..., "type": "FIT", "updatedAt": date}`. -/
structure ItemM where
  count : Int
  type : String
  updatedAt : String
deriving DecidableEq

/-- An element of the list built by `market.create_stocks`:
`{"sku": ..., "warehouseId": ..., "items": [...]}`. -/
structure StockM where
  sku : String
  warehouseId : String
  items : List ItemM
deriving DecidableEq

namespace Seller

/-- The first loop of `seller.create_stocks`: for each snapshot row whose
code is in `offer_ids`, normalize the quantity, append a stock record and
remove the code from `offer_ids` (Python `list.remove` deletes the first
occurrence). Returns the built records and the final state of `offer_ids`. -/
def stocksLoop : List Watch → List String → Option (List StockS × List String)
  | [], offer_ids => some ([], offer_ids)
  | w :: ws, offer_ids =>
      if w.kod ∈ offer_ids then
        (normalizeQuantity w.kolvo).bind fun stock =>
          (stocksLoop ws (offer_ids.erase w.kod)).map fun pr =>
            (⟨w.kod, stock⟩ :: pr.1, pr.2)
      else stocksLoop ws offer_ids

/-- `seller.create_stocks`: after the matching loop, append a zero-stock
record for every identifier still in `offer_ids`. The second component is
the final state of the caller's `offer_ids` list (the second loop does not
mutate it). -/
def create_stocks (watch_remnants : List Watch) (offer_ids : List String) :
    Option (List StockS × List String) :=
  (stocksLoop watch_remnants offer_ids).map fun pr =>
    (pr.1 ++ pr.2.map (fun offer_id => ⟨offer_id, 0⟩), pr.2)

/-- An element of the list built by `seller.create_prices`. -/
structure PriceS where
  auto_action_enabled : String
  currency_code : String
  offer_id : String
  old_price : String
  price : String
deriving DecidableEq

/-- `seller.create_prices`: one record per snapshot row whose code is in
`offer_ids`; `offer_ids` is only read. The second component is the final
state of the caller's `offer_ids` list. -/
def create_prices : List Watch → List String → List PriceS × List String
  | [], offer_ids => ([], offer_ids)
  | w :: ws, offer_ids =>
      if w.kod ∈ offer_ids then
        let rest := create_prices ws offer_ids
        (⟨"UNKNOWN", "RUB", w.kod, "0", price_conversion w.cena⟩ :: rest.1,
          rest.2)
      else create_prices ws offer_ids

end Seller

namespace Market

/-- The first loop of `market.create_stocks`; identical control flow to the
seller version, different record shape (`sku`/`warehouseId`/`items`). The
timestamp `date` is computed once before the loop from the clock; it is a
parameter here. -/
def stocksLoop (warehouse_id date : String) :
    List Watch → List String → Option (List StockM × List String)
  | [], offer_ids => some ([], offer_ids)
  | w :: ws, offer_ids =>
      if w.kod ∈ offer_ids then
        (normalizeQuantity w.kolvo).bind fun stock =>
          (stocksLoop warehouse_id date ws (offer_ids.erase w.kod)).map fun pr =>
            (⟨w.kod, warehouse_id, [⟨stock, "FIT", date⟩]⟩ :: pr.1, pr.2)
      else stocksLoop warehouse_id date ws offer_ids

/-- `market.create_stocks`: matching loop, then a zero-count record for
every identifier still in `offer_ids`. -/
def create_stocks (watch_remnants : List Watch) (offer_ids : List String)
    (warehouse_id date : String) : Option (List StockM × List String) :=
  (stocksLoop warehouse_id date watch_remnants offer_ids).map fun pr =>
    (pr.1 ++
      pr.2.map (fun offer_id => ⟨offer_id, warehouse_id, [⟨0, "FIT", date⟩]⟩),
      pr.2)

/-- The `price` sub-object of a `market.create_prices` record. -/
structure PriceValM where
  value : Int
  currencyId : String
deriving DecidableEq

/-- An element of the list built by `market.create_prices`:
`{"id": ..., "price": {"value": int(price_conversion(...)), "currencyId": "RUR"}}`. -/
structure PriceM where
  id : String
  price : PriceValM
deriving DecidableEq

/-- `market.create_prices`: one record per snapshot row whose code is in
`offer_ids`; `int(price_conversion(...))` can raise, so the result is an
`Option`. The `offer_ids` list is only read; the second component is its
final state. -/
def create_prices : List Watch → List String → Option (List PriceM × List String)
  | [], offer_ids => some ([], offer_ids)
  | w :: ws, offer_ids =>
      if w.kod ∈ offer_ids then
        (pyInt? (price_conversion w.cena)).bind fun v =>
          (create_prices ws offer_ids).map fun pr =>
            (⟨w.kod, ⟨v, "RUR"⟩⟩ :: pr.1, pr.2)
      else create_prices ws offer_ids

end Market

/-- One chunking step of `seller.divide` for a positive size `n`, driven by
a fuel argument (`fuel ≥ lst.length` suffices when `1 ≤ n`): emit
`lst[i : i + n]` slices in order. -/
def chunkAux (n : Nat) : Nat → List α → List (List α)
  | _, [] => []
  | 0, _ :: _ => []
  | fuel + 1, x :: xs => (x :: xs).take n :: chunkAux n fuel ((x :: xs).drop n)

/-- `seller.divide(lst, n)`, fully forced (`list(divide(lst, n))`): the
slices `lst[i : i + n]` for `i in range(0, len(lst), n)`. `range` with step
0 raises `ValueError` (`none`); with a negative step and `0 ≤ len(lst)` it
is empty, so a negative `n` yields no chunks. -/
def divide (lst : List α) (n : Int) : Option (List (List α)) :=
  if n = 0 then none
  else if n < 0 then some []
  else some (chunkAux n.toNat lst.length lst)

/-- An item of an Ozon `product/list` page (`items` entry); only
`offer_id` is read by the core. -/
structure Product where
  offer_id : String
deriving DecidableEq

/-- The `result` object of one Ozon `product/list` response: the fields
`seller.get_offer_ids` reads. -/
structure PageS where
  items : List Product
  total : Nat
  last_id : String
deriving DecidableEq

/-- The fetch loop of `seller.get_offer_ids`: extend the accumulated
product list with each page's items and stop as soon as the page's reported
`total` equals the number of products accumulated so far. The collaborator
is modelled as the list of pages it would return in order; exhausting it
without the counts ever matching means the loop does not terminate
normally (`none`). -/
def drainPages : List PageS → List Product → Option (List Product)
  | [], _ => none
  | p :: rest, acc =>
      let acc' := acc ++ p.items
      if p.total = acc'.length then some acc' else drainPages rest acc'

/-- `seller.get_offer_ids` over a modelled page stream: drain the pages,
then map each product to its `offer_id`. -/
def get_offer_ids (pages : List PageS) : Option (List String) :=
  (drainPages pages []).map (List.map Product.offer_id)

/-- The cumulative number of items fetched after consuming pages
`0 … k` of the stream. -/
def cumItems (pages : List PageS) (k : Nat) : Nat :=
  (((pages.take (k + 1)).map PageS.items).flatten).length

/-- The stopping condition of the count-based paginator at page `k`:
the cumulative item count equals the `total` reported by page `k`. -/
def stopsAt (pages : List PageS) (k : Nat) : Prop :=
  k < pages.length ∧ (pages.getD k ⟨[], 0, ""⟩).total = cumItems pages k

/-- The marketplace-B stock record corresponding to a marketplace-A one:
same identifier and quantity, wrapped in the `sku`/`warehouseId`/`items`
shape. Used to relate the two `create_stocks` embeddings. -/
def mStockOf (warehouse_id date : String) (s : StockS) : StockM :=
  ⟨s.offer_id, warehouse_id, [⟨s.stock, "FIT", date⟩]⟩

theorem Seller.create_stocks_eq {ws : List Watch} {ids : List String}
    {out : List StockS} {rem : List String}
    (h : Seller.create_stocks ws ids = some (out, rem)) :
    ∃ m, Seller.stocksLoop ws ids = some (m, rem) ∧
      out = m ++ rem.map (fun i => ⟨i, 0⟩) := by
  unfold Seller.create_stocks at h
  cases hl : Seller.stocksLoop ws ids with
  | none => rw [hl] at h; exact absurd h (by simp)
  | some pr =>
      obtain ⟨m, ids2⟩ := pr
      rw [hl] at h
      simp only [Option.map_some', Option.some.injEq, Prod.mk.injEq] at h
      obtain ⟨h1, h2⟩ := h
      subst h2
      exact ⟨m, rfl, h1.symm⟩

theorem Seller.stocksLoop_perm : ∀ {ws : List Watch} {ids : List String}
    {m : List StockS} {rem : List String}, ids.Nodup →
    Seller.stocksLoop ws ids = some (m, rem) →
    (m.map StockS.offer_id ++ rem).Perm ids := by
  intro ws
  induction ws with
  | nil =>
      intro ids m rem _ h
      simp only [Seller.stocksLoop, Option.some.injEq, Prod.mk.injEq] at h
      obtain ⟨h1, h2⟩ := h
      subst h1; subst h2
      simp
  | cons w ws ih =>
      intro ids m rem hnd h
      by_cases hmem : w.kod ∈ ids
      · simp only [Seller.stocksLoop, if_pos hmem] at h
        cases hq : normalizeQuantity w.kolvo with
        | none => rw [hq] at h; exact absurd h (by simp)
        | some stock =>
            rw [hq] at h
            cases hr : Seller.stocksLoop ws (ids.erase w.kod) with
            | none => rw [hr] at h; exact absurd h (by simp)
            | some pr =>
                obtain ⟨rest, ids2⟩ := pr
                rw [hr] at h
                simp only [Option.some_bind, Option.map_some', Option.some.injEq,
                  Prod.mk.injEq] at h
                obtain ⟨h1, h2⟩ := h
                subst h1; subst h2
                have hperm := ih (hnd.erase w.kod) hr
                have hstep : (w.kod :: (rest.map StockS.offer_id ++ ids2)).Perm ids :=
                  (hperm.cons w.kod).trans (List.perm_cons_erase hmem).symm
                simpa using hstep
      · simp only [Seller.stocksLoop, if_neg hmem] at h
        exact ih hnd h

theorem Seller.stocksLoop_sublist : ∀ {ws : List Watch} {ids : List String}
    {m : List StockS} {rem : List String},
    Seller.stocksLoop ws ids = some (m, rem) → List.Sublist rem ids := by
  intro ws
  induction ws with
  | nil =>
      intro ids m rem h
      simp only [Seller.stocksLoop, Option.some.injEq, Prod.mk.injEq] at h
      rw [← h.2]
  | cons w ws ih =>
      intro ids m rem h
      by_cases hmem : w.kod ∈ ids
      · simp only [Seller.stocksLoop, if_pos hmem] at h
        cases hq : normalizeQuantity w.kolvo with
        | none => rw [hq] at h; exact absurd h (by simp)
        | some stock =>
            rw [hq] at h
            cases hr : Seller.stocksLoop ws (ids.erase w.kod) with
            | none => rw [hr] at h; exact absurd h (by simp)
            | some pr =>
                obtain ⟨rest, ids2⟩ := pr
                rw [hr] at h
                simp only [Option.some_bind, Option.map_some', Option.some.injEq,
                  Prod.mk.injEq] at h
                obtain ⟨h1, h2⟩ := h
                subst h2
                exact (ih hr).trans (List.erase_sublist w.kod ids)
      · simp only [Seller.stocksLoop, if_neg hmem] at h
        exact ih h

theorem Seller.stocksLoop_unmatched : ∀ {ws : List Watch} {ids : List String}
    {m : List StockS} {rem : List String},
    Seller.stocksLoop ws ids = some (m, rem) →
    ∀ x ∈ ids, (∀ w ∈ ws, w.kod ≠ x) → x ∈ rem := by
  intro ws
  induction ws with
  | nil =>
      intro ids m rem h x hx _
      simp only [Seller.stocksLoop, Option.some.injEq, Prod.mk.injEq] at h
      rw [← h.2]; exact hx
  | cons w ws ih =>
      intro ids m rem h x hx hall
      have hwx : w.kod ≠ x := hall w (List.mem_cons_self w ws)
      have htail : ∀ v ∈ ws, v.kod ≠ x := fun v hv =>
        hall v (List.mem_cons_of_mem w hv)
      by_cases hmem : w.kod ∈ ids
      · simp only [Seller.stocksLoop, if_pos hmem] at h
        cases hq : normalizeQuantity w.kolvo with
        | none => rw [hq] at h; exact absurd h (by simp)
        | some stock =>
            rw [hq] at h
            cases hr : Seller.stocksLoop ws (ids.erase w.kod) with
            | none => rw [hr] at h; exact absurd h (by simp)
            | some pr =>
                obtain ⟨rest, ids2⟩ := pr
                rw [hr] at h
                simp only [Option.some_bind, Option.map_some', Option.some.injEq,
                  Prod.mk.injEq] at h
                obtain ⟨h1, h2⟩ := h
                subst h2
                have hx2 : x ∈ ids.erase w.kod :=
                  (List.mem_erase_of_ne (Ne.symm hwx)).mpr hx
                exact ih hr x hx2 htail
      · simp only [Seller.stocksLoop, if_neg hmem] at h
        exact ih h x hx htail

theorem Seller.stocksLoop_matched : ∀ {ws : List Watch} {ids : List String}
    {m : List StockS} {rem : List String},
    Seller.stocksLoop ws ids = some (m, rem) →
    ∀ s ∈ m, ∃ w ∈ ws, s.offer_id = w.kod := by
  intro ws
  induction ws with
  | nil =>
      intro ids m rem h s hs
      simp only [Seller.stocksLoop, Option.some.injEq, Prod.mk.injEq] at h
      rw [← h.1] at hs
      exact absurd hs (List.not_mem_nil s)
  | cons w ws ih =>
      intro ids m rem h s hs
      by_cases hmem : w.kod ∈ ids
      · simp only [Seller.stocksLoop, if_pos hmem] at h
        cases hq : normalizeQuantity w.kolvo with
        | none => rw [hq] at h; exact absurd h (by simp)
        | some stock =>
            rw [hq] at h
            cases hr : Seller.stocksLoop ws (ids.erase w.kod) with
            | none => rw [hr] at h; exact absurd h (by simp)
            | some pr =>
                obtain ⟨rest, ids2⟩ := pr
                rw [hr] at h
                simp only [Option.some_bind, Option.map_some', Option.some.injEq,
                  Prod.mk.injEq] at h
                obtain ⟨h1, h2⟩ := h
                subst h1
                rcases List.mem_cons.mp hs with hhead | htail
                · exact ⟨w, List.mem_cons_self w ws, by rw [hhead]⟩
                · obtain ⟨v, hv, hvk⟩ := ih hr s htail
                  exact ⟨v, List.mem_cons_of_mem w hv, hvk⟩
      · simp only [Seller.stocksLoop, if_neg hmem] at h
        obtain ⟨v, hv, hvk⟩ := ih h s hs
        exact ⟨v, List.mem_cons_of_mem w hv, hvk⟩

theorem Seller.stocksLoop_rem_filter : ∀ {ws : List Watch} {ids : List String}
    {m : List StockS} {rem : List String}, ids.Nodup →
    Seller.stocksLoop ws ids = some (m, rem) →
    rem = ids.filter (fun x => ws.all (fun w => w.kod != x)) := by
  intro ws
  induction ws with
  | nil =>
      intro ids m rem _ h
      simp only [Seller.stocksLoop, Option.some.injEq, Prod.mk.injEq] at h
      rw [← h.2]
      simp
  | cons w ws ih =>
      intro ids m rem hnd h
      by_cases hmem : w.kod ∈ ids
      · simp only [Seller.stocksLoop, if_pos hmem] at h
        cases hq : normalizeQuantity w.kolvo with
        | none => rw [hq] at h; exact absurd h (by simp)
        | some stock =>
            rw [hq] at h
            cases hr : Seller.stocksLoop ws (ids.erase w.kod) with
            | none => rw [hr] at h; exact absurd h (by simp)
            | some pr =>
                obtain ⟨rest, ids2⟩ := pr
                rw [hr] at h
                simp only [Option.some_bind, Option.map_some', Option.some.injEq,
                  Prod.mk.injEq] at h
                obtain ⟨h1, h2⟩ := h
                subst h2
                rw [ih (hnd.erase w.kod) hr]
                rw [List.Nodup.erase_eq_filter hnd w.kod, List.filter_filter]
                apply List.filter_congr
                intro x _
                have hcomm : (w.kod != x) = (x != w.kod) := by
                  by_cases hx : w.kod = x
                  · subst hx; rfl
                  · rw [bne_iff_ne.mpr hx, bne_iff_ne.mpr (Ne.symm hx)]
                simp only [List.all_cons, hcomm]
                exact Bool.and_comm (ws.all fun v => v.kod != x) (x != w.kod)
      · simp only [Seller.stocksLoop, if_neg hmem] at h
        rw [ih hnd h]
        apply List.filter_congr
        intro x hx
        have : w.kod ≠ x := fun hc => hmem (hc ▸ hx)
        simp [List.all_cons, this]

theorem Market.stocksLoop_eq_seller (wh d : String) : ∀ (ws : List Watch)
    (ids : List String),
    Market.stocksLoop wh d ws ids =
      (Seller.stocksLoop ws ids).map fun pr =>
        (pr.1.map (mStockOf wh d), pr.2) := by
  intro ws
  induction ws with
  | nil => intro ids; rfl
  | cons w ws ih =>
      intro ids
      by_cases hmem : w.kod ∈ ids
      · simp only [Market.stocksLoop, Seller.stocksLoop, if_pos hmem]
        cases hq : normalizeQuantity w.kolvo with
        | none => simp
        | some stock =>
            rw [ih (ids.erase w.kod)]
            cases hr : Seller.stocksLoop ws (ids.erase w.kod) with
            | none => simp
            | some pr => simp [mStockOf]
      · simp only [Market.stocksLoop, Seller.stocksLoop, if_neg hmem]
        exact ih ids

theorem Market.create_stocks_eq_seller (ws : List Watch) (ids : List String)
    (wh d : String) :
    Market.create_stocks ws ids wh d =
      (Seller.create_stocks ws ids).map fun pr =>
        (pr.1.map (mStockOf wh d), pr.2) := by
  unfold Market.create_stocks Seller.create_stocks
  rw [Market.stocksLoop_eq_seller wh d ws ids]
  cases Seller.stocksLoop ws ids with
  | none => rfl
  | some pr =>
      simp [mStockOf, Function.comp, List.map_append, List.map_map]

theorem sellerPrices_snd : ∀ (ws : List Watch) (ids : List String),
    (Seller.create_prices ws ids).2 = ids := by
  intro ws
  induction ws with
  | nil => intro ids; rfl
  | cons w ws ih =>
      intro ids
      by_cases hmem : w.kod ∈ ids
      · simp only [Seller.create_prices, if_pos hmem]
        exact ih ids
      · simp only [Seller.create_prices, if_neg hmem]
        exact ih ids

theorem sellerPrices_mem : ∀ (ws : List Watch) (ids : List String),
    ∀ p ∈ (Seller.create_prices ws ids).1,
      p.offer_id ∈ ids ∧ ∃ w ∈ ws, w.kod = p.offer_id := by
  intro ws
  induction ws with
  | nil =>
      intro ids p hp
      exact absurd hp (List.not_mem_nil p)
  | cons w ws ih =>
      intro ids p hp
      by_cases hmem : w.kod ∈ ids
      · simp only [Seller.create_prices, if_pos hmem] at hp
        rcases List.mem_cons.mp hp with hhead | htail
        · subst hhead
          exact ⟨hmem, w, List.mem_cons_self w ws, rfl⟩
        · obtain ⟨hin, v, hv, hvk⟩ := ih ids p htail
          exact ⟨hin, v, List.mem_cons_of_mem w hv, hvk⟩
      · simp only [Seller.create_prices, if_neg hmem] at hp
        obtain ⟨hin, v, hv, hvk⟩ := ih ids p hp
        exact ⟨hin, v, List.mem_cons_of_mem w hv, hvk⟩

theorem marketPrices_snd : ∀ {ws : List Watch} {ids : List String}
    {out : List Market.PriceM} {rem : List String},
    Market.create_prices ws ids = some (out, rem) → rem = ids := by
  intro ws
  induction ws with
  | nil =>
      intro ids out rem h
      simp only [Market.create_prices, Option.some.injEq, Prod.mk.injEq] at h
      exact h.2.symm
  | cons w ws ih =>
      intro ids out rem h
      by_cases hmem : w.kod ∈ ids
      · simp only [Market.create_prices, if_pos hmem] at h
        cases hq : pyInt? (price_conversion w.cena) with
        | none => rw [hq] at h; exact absurd h (by simp)
        | some v =>
            rw [hq] at h
            cases hr : Market.create_prices ws ids with
            | none => rw [hr] at h; exact absurd h (by simp)
            | some pr =>
                obtain ⟨rest, ids2⟩ := pr
                rw [hr] at h
                simp only [Option.some_bind, Option.map_some', Option.some.injEq,
                  Prod.mk.injEq] at h
                rw [← h.2]
                exact ih hr
      · simp only [Market.create_prices, if_neg hmem] at h
        exact ih h

theorem marketPrices_mem : ∀ {ws : List Watch} {ids : List String}
    {out : List Market.PriceM} {rem : List String},
    Market.create_prices ws ids = some (out, rem) →
    ∀ p ∈ out, p.id ∈ ids ∧ ∃ w ∈ ws, w.kod = p.id := by
  intro ws
  induction ws with
  | nil =>
      intro ids out rem h p hp
      simp only [Market.create_prices, Option.some.injEq, Prod.mk.injEq] at h
      rw [← h.1] at hp
      exact absurd hp (List.not_mem_nil p)
  | cons w ws ih =>
      intro ids out rem h p hp
      by_cases hmem : w.kod ∈ ids
      · simp only [Market.create_prices, if_pos hmem] at h
        cases hq : pyInt? (price_conversion w.cena) with
        | none => rw [hq] at h; exact absurd h (by simp)
        | some v =>
            rw [hq] at h
            cases hr : Market.create_prices ws ids with
            | none => rw [hr] at h; exact absurd h (by simp)
            | some pr =>
                obtain ⟨rest, ids2⟩ := pr
                rw [hr] at h
                simp only [Option.some_bind, Option.map_some', Option.some.injEq,
                  Prod.mk.injEq] at h
                rw [← h.1] at hp
                rcases List.mem_cons.mp hp with hhead | htail
                · subst hhead
                  exact ⟨hmem, w, List.mem_cons_self w ws, rfl⟩
                · obtain ⟨hin, v2, hv, hvk⟩ := ih hr p htail
                  exact ⟨hin, v2, List.mem_cons_of_mem w hv, hvk⟩
      · simp only [Market.create_prices, if_neg hmem] at h
        obtain ⟨hin, v2, hv, hvk⟩ := ih h p hp
        exact ⟨hin, v2, List.mem_cons_of_mem w hv, hvk⟩

/-- C1: for every snapshot sequence and duplicate-free catalog list, both
`create_stocks` implementations return (when they return) a list whose
length equals the number of distinct catalog identifiers, and every catalog
identifier appears as the `offer_id` (resp. `sku`) of exactly one output
record. -/
theorem claim_C1 (ws : List Watch) (ids : List String) (hnd : ids.Nodup) :
    (∀ out rem, Seller.create_stocks ws ids = some (out, rem) →
        out.length = ids.length ∧
        ∀ x ∈ ids, (out.map StockS.offer_id).count x = 1) ∧
    (∀ wh d out rem, Market.create_stocks ws ids wh d = some (out, rem) →
        out.length = ids.length ∧
        ∀ x ∈ ids, (out.map StockM.sku).count x = 1) := by
  have hseller : ∀ out rem, Seller.create_stocks ws ids = some (out, rem) →
      out.length = ids.length ∧
      ∀ x ∈ ids, (out.map StockS.offer_id).count x = 1 := by
    intro out rem h
    obtain ⟨m, hl, hout⟩ := Seller.create_stocks_eq h
    have hperm := Seller.stocksLoop_perm hnd hl
    have hmap : out.map StockS.offer_id = m.map StockS.offer_id ++ rem := by
      subst hout
      simp only [List.map_append, List.map_map]
      congr 1
      exact List.map_id rem
    constructor
    · have hlen : (out.map StockS.offer_id).length = ids.length := by
        rw [hmap]; exact hperm.length_eq
      simpa using hlen
    · intro x hx
      rw [hmap, hperm.count_eq]
      exact List.count_eq_one_of_mem hnd hx
  refine ⟨hseller, ?_⟩
  intro wh d out rem h
  rw [Market.create_stocks_eq_seller] at h
  cases hs : Seller.create_stocks ws ids with
  | none => rw [hs] at h; exact absurd h (by simp)
  | some pr =>
      obtain ⟨outS, remS⟩ := pr
      rw [hs] at h
      simp only [Option.map_some', Option.some.injEq, Prod.mk.injEq] at h
      obtain ⟨h1, h2⟩ := h
      obtain ⟨hlen, hcount⟩ := hseller outS remS hs
      constructor
      · rw [← h1]; simpa using hlen
      · intro x hx
        have hmap2 : out.map StockM.sku = outS.map StockS.offer_id := by
          rw [← h1]; simp [mStockOf, List.map_map, Function.comp]
        rw [hmap2]
        exact hcount x hx

theorem claim_C1_witness :
    (["A", "B"] : List String).Nodup ∧
    Seller.create_stocks [⟨"A", ">10", "x"⟩, ⟨"A", "1", "y"⟩] ["A", "B"] =
      some ([⟨"A", 100⟩, ⟨"B", 0⟩], ["B"]) ∧
    (([⟨"A", 100⟩, ⟨"B", 0⟩] : List StockS).length =
        (["A", "B"] : List String).length ∧
      ∀ x ∈ (["A", "B"] : List String),
        ((([⟨"A", 100⟩, ⟨"B", 0⟩] : List StockS).map StockS.offer_id).count x
          = 1)) :=
  ⟨by decide, by decide,
    (claim_C1 [⟨"A", ">10", "x"⟩, ⟨"A", "1", "y"⟩] ["A", "B"] (by decide)).1
      [⟨"A", 100⟩, ⟨"B", 0⟩] ["B"] (by decide)⟩

/-- C2: for every catalog identifier matching no snapshot code, both
`create_stocks` implementations emit a zero-stock (zero-count) record, and
those default records form the tail of the output, after all
snapshot-matched records, in the catalog's original order (the remaining
identifiers are a sublist of the catalog). -/
theorem claim_C2 (ws : List Watch) (ids : List String) :
    (∀ out rem, Seller.create_stocks ws ids = some (out, rem) →
        List.Sublist rem ids ∧
        (∀ x ∈ ids, (∀ w ∈ ws, w.kod ≠ x) → x ∈ rem) ∧
        ∃ pre, out = pre ++ rem.map (fun i => (⟨i, 0⟩ : StockS)) ∧
          ∀ s ∈ pre, ∃ w ∈ ws, s.offer_id = w.kod) ∧
    (∀ wh d out rem, Market.create_stocks ws ids wh d = some (out, rem) →
        List.Sublist rem ids ∧
        (∀ x ∈ ids, (∀ w ∈ ws, w.kod ≠ x) → x ∈ rem) ∧
        ∃ pre, out = pre ++ rem.map
            (fun i => (⟨i, wh, [⟨0, "FIT", d⟩]⟩ : StockM)) ∧
          ∀ s ∈ pre, ∃ w ∈ ws, s.sku = w.kod) := by
  have hseller : ∀ out rem, Seller.create_stocks ws ids = some (out, rem) →
      List.Sublist rem ids ∧
      (∀ x ∈ ids, (∀ w ∈ ws, w.kod ≠ x) → x ∈ rem) ∧
      ∃ pre, out = pre ++ rem.map (fun i => (⟨i, 0⟩ : StockS)) ∧
        ∀ s ∈ pre, ∃ w ∈ ws, s.offer_id = w.kod := by
    intro out rem h
    obtain ⟨m, hl, hout⟩ := Seller.create_stocks_eq h
    exact ⟨Seller.stocksLoop_sublist hl, Seller.stocksLoop_unmatched hl,
      m, hout, Seller.stocksLoop_matched hl⟩
  refine ⟨hseller, ?_⟩
  intro wh d out rem h
  rw [Market.create_stocks_eq_seller] at h
  cases hs : Seller.create_stocks ws ids with
  | none => rw [hs] at h; exact absurd h (by simp)
  | some pr =>
      obtain ⟨outS, remS⟩ := pr
      rw [hs] at h
      simp only [Option.map_some', Option.some.injEq, Prod.mk.injEq] at h
      obtain ⟨h1, h2⟩ := h
      obtain ⟨hsub, hunm, pre, hpre, hprematch⟩ := hseller outS remS hs
      subst h2
      refine ⟨hsub, hunm, pre.map (mStockOf wh d), ?_, ?_⟩
      · rw [← h1, hpre]
        simp [mStockOf, List.map_append, List.map_map, Function.comp]
      · intro s hsmem
        obtain ⟨s0, hs0, hs0eq⟩ := List.mem_map.mp hsmem
        obtain ⟨w, hw, hwk⟩ := hprematch s0 hs0
        refine ⟨w, hw, ?_⟩
        rw [← hs0eq]
        exact hwk

theorem claim_C2_witness :
    Seller.create_stocks [⟨"A", ">10", "p"⟩] ["A", "B"] =
      some ([⟨"A", 100⟩, ⟨"B", 0⟩], ["B"]) ∧
    (List.Sublist (["B"] : List String) ["A", "B"] ∧
      (∀ x ∈ (["A", "B"] : List String),
        (∀ w ∈ [(⟨"A", ">10", "p"⟩ : Watch)], w.kod ≠ x) → x ∈ (["B"] : List String)) ∧
      ∃ pre, ([⟨"A", 100⟩, ⟨"B", 0⟩] : List StockS) =
          pre ++ (["B"] : List String).map (fun i => (⟨i, 0⟩ : StockS)) ∧
        ∀ s ∈ pre, ∃ w ∈ [(⟨"A", ">10", "p"⟩ : Watch)], s.offer_id = w.kod) :=
  ⟨by decide,
    (claim_C2 [⟨"A", ">10", "p"⟩] ["A", "B"]).1
      [⟨"A", 100⟩, ⟨"B", 0⟩] ["B"] (by decide)⟩

/-- C3 counterexample: with an empty snapshot and catalog `["X"]`, both
`create_stocks` implementations leave `"X"` in the catalog-identifier
collection — it is not empty after the call, contradicting the claim. -/
theorem claim_C3_counterexample :
    Seller.create_stocks [] ["X"] = some ([⟨"X", 0⟩], ["X"]) ∧
    Market.create_stocks [] ["X"] "WH" "D" =
      some ([⟨"X", "WH", [⟨0, "FIT", "D"⟩]⟩], ["X"]) ∧
    (["X"] : List String) ≠ [] := by
  refine ⟨by decide, by decide, by decide⟩

/-- C3 (amended): after `create_stocks` returns, the catalog-identifier
collection holds exactly the identifiers that matched no snapshot record,
in their original order — only matched identifiers were removed; it is
empty only when every identifier was matched, not in general. -/
theorem claim_C3_amended (ws : List Watch) (ids : List String)
    (hnd : ids.Nodup) :
    (∀ out rem, Seller.create_stocks ws ids = some (out, rem) →
        rem = ids.filter (fun x => ws.all (fun w => w.kod != x))) ∧
    (∀ wh d out rem, Market.create_stocks ws ids wh d = some (out, rem) →
        rem = ids.filter (fun x => ws.all (fun w => w.kod != x))) := by
  have hseller : ∀ out rem, Seller.create_stocks ws ids = some (out, rem) →
      rem = ids.filter (fun x => ws.all (fun w => w.kod != x)) := by
    intro out rem h
    obtain ⟨m, hl, _⟩ := Seller.create_stocks_eq h
    exact Seller.stocksLoop_rem_filter hnd hl
  refine ⟨hseller, ?_⟩
  intro wh d out rem h
  rw [Market.create_stocks_eq_seller] at h
  cases hs : Seller.create_stocks ws ids with
  | none => rw [hs] at h; exact absurd h (by simp)
  | some pr =>
      obtain ⟨outS, remS⟩ := pr
      rw [hs] at h
      simp only [Option.map_some', Option.some.injEq, Prod.mk.injEq] at h
      rw [← h.2]
      exact hseller outS remS hs

theorem claim_C3_amended_witness :
    (["A", "B"] : List String).Nodup ∧
    Seller.create_stocks [⟨"A", ">10", "p"⟩] ["A", "B"] =
      some ([⟨"A", 100⟩, ⟨"B", 0⟩], ["B"]) ∧
    (["B"] : List String) =
      (["A", "B"] : List String).filter
        (fun x => ([⟨"A", ">10", "p"⟩] : List Watch).all
          (fun w => w.kod != x)) :=
  ⟨by decide, by decide,
    (claim_C3_amended [⟨"A", ">10", "p"⟩] ["A", "B"] (by decide)).1
      [⟨"A", 100⟩, ⟨"B", 0⟩] ["B"] (by decide)⟩

/-- C4: the quantity policy maps the exact string `">10"` to 100, the exact
string `"1"` to 0, and any other string to its base-10 integer parse
(`none` models the `ValueError` raised on non-numeric text); in particular
`"7"` parses to 7. -/
theorem claim_C4 :
    normalizeQuantity ">10" = some 100 ∧ normalizeQuantity "1" = some 0 ∧
    normalizeQuantity "7" = some 7 ∧ normalizeQuantity "many" = none ∧
    ∀ s : String, s ≠ ">10" → s ≠ "1" → normalizeQuantity s = pyInt? s := by
  refine ⟨by decide, by decide, by decide, by decide, ?_⟩
  intro s h1 h2
  unfold normalizeQuantity
  rw [if_neg h1, if_neg h2]

theorem claim_C4_witness :
    ("25" : String) ≠ ">10" ∧ ("25" : String) ≠ "1" ∧
    normalizeQuantity "25" = pyInt? "25" :=
  ⟨by decide, by decide, claim_C4.2.2.2.2 "25" (by decide) (by decide)⟩

/-- C5: `price_conversion` keeps the text before the first decimal point
and strips every non-ASCII-digit character from it; on the spec's examples
it yields `"5990"`, `""` and `"123"`, and an input containing no decimal
point has its whole text treated as the integer part. -/
theorem claim_C5 :
    price_conversion "5\x27990.00 руб." = "5990" ∧
    price_conversion "" = "" ∧
    price_conversion "123" = "123" ∧
    ∀ s : String, '.' ∉ s.toList →
      price_conversion s = String.mk (s.toList.filter Char.isDigit) := by
  refine ⟨by decide, by decide, by decide, ?_⟩
  intro s hdot
  unfold price_conversion
  have htw : s.toList.takeWhile (fun c => c ≠ '.') = s.toList := by
    apply List.takeWhile_eq_self_iff.mpr
    intro c hc
    simp only [ne_eq, decide_eq_true_eq]
    intro hcdot
    exact hdot (hcdot ▸ hc)
  rw [htw]

theorem claim_C5_witness :
    '.' ∉ ("12 c" : String).toList ∧
    price_conversion "12 c" =
      String.mk (("12 c" : String).toList.filter Char.isDigit) :=
  ⟨by decide, claim_C5.2.2.2 "12 c" (by decide)⟩

theorem chunkAux_flatten {α : Type} (n : Nat) (hn : 1 ≤ n) :
    ∀ (fuel : Nat) (l : List α), l.length ≤ fuel →
      (chunkAux n fuel l).flatten = l := by
  intro fuel
  induction fuel with
  | zero =>
      intro l hl
      have hnil : l = [] := List.eq_nil_of_length_eq_zero (Nat.le_zero.mp hl)
      subst hnil
      rfl
  | succ fuel ih =>
      intro l hl
      cases l with
      | nil => rfl
      | cons x xs =>
          simp only [chunkAux, List.flatten_cons]
          rw [ih ((x :: xs).drop n) (by rw [List.length_drop]; simp at hl ⊢; omega)]
          exact List.take_append_drop n (x :: xs)

theorem chunkAux_chunks {α : Type} (n : Nat) (hn : 1 ≤ n) :
    ∀ (fuel : Nat) (l : List α), l.length ≤ fuel →
      ∀ c ∈ chunkAux n fuel l, c ≠ [] ∧ c.length ≤ n := by
  intro fuel
  induction fuel with
  | zero =>
      intro l hl c hc
      have hnil : l = [] := List.eq_nil_of_length_eq_zero (Nat.le_zero.mp hl)
      subst hnil
      exact absurd hc (List.not_mem_nil c)
  | succ fuel ih =>
      intro l hl c hc
      cases l with
      | nil => exact absurd hc (List.not_mem_nil c)
      | cons x xs =>
          simp only [chunkAux] at hc
          rcases List.mem_cons.mp hc with hhead | htail
          · subst hhead
            constructor
            · obtain ⟨m, rfl⟩ := Nat.exists_eq_add_of_le hn
              simp [List.take_succ_cons]
            · rw [List.length_take]
              exact Nat.min_le_left n _
          · exact ih ((x :: xs).drop n)
              (by rw [List.length_drop]; simp at hl ⊢; omega) c htail

theorem chunkAux_dropLast {α : Type} (n : Nat) (hn : 1 ≤ n) :
    ∀ (fuel : Nat) (l : List α), l.length ≤ fuel →
      ∀ c ∈ (chunkAux n fuel l).dropLast, c.length = n := by
  intro fuel
  induction fuel with
  | zero =>
      intro l hl c hc
      have hnil : l = [] := List.eq_nil_of_length_eq_zero (Nat.le_zero.mp hl)
      subst hnil
      exact absurd hc (List.not_mem_nil c)
  | succ fuel ih =>
      intro l hl c hc
      cases l with
      | nil => exact absurd hc (List.not_mem_nil c)
      | cons x xs =>
          simp only [chunkAux] at hc
          cases hdrop : (x :: xs).drop n with
          | nil =>
              rw [hdrop] at hc
              simp only [chunkAux] at hc
              exact absurd hc (List.not_mem_nil c)
          | cons y ys =>
              rw [hdrop] at hc
              have hfl : (y :: ys).length ≤ fuel := by
                have := congrArg List.length hdrop
                rw [List.length_drop] at this
                simp at hl this ⊢
                omega
              have hrest : chunkAux n fuel (y :: ys) ≠ [] := by
                cases fuel with
                | zero => simp at hfl
                | succ fuel2 => simp [chunkAux]
              rw [List.dropLast_cons_of_ne_nil hrest] at hc
              rcases List.mem_cons.mp hc with hhead | htail
              · subst hhead
                rw [List.length_take]
                have hlen : n < (x :: xs).length := by
                  by_contra hge
                  have : (x :: xs).drop n = [] := by
                    apply List.drop_eq_nil_of_le
                    omega
                  rw [this] at hdrop
                  exact absurd hdrop (by simp)
                omega
              · exact ih (y :: ys) hfl c htail

/-- C6: for every list and positive chunk size, `divide` succeeds, the
chunks concatenate back to the input, every chunk but the last has length
exactly `n`, every chunk is non-empty of length at most `n`, and the empty
list yields no chunks. -/
theorem claim_C6 {α : Type} (S : List α) (n : Int) (hn : 0 < n) :
    ∃ cs, divide S n = some cs ∧ cs.flatten = S ∧
      (∀ c ∈ cs.dropLast, c.length = n.toNat) ∧
      (∀ c ∈ cs, c ≠ [] ∧ c.length ≤ n.toNat) ∧
      divide ([] : List α) n = some [] := by
  have hne : n ≠ 0 := ne_of_gt hn
  have hnlt : ¬ n < 0 := not_lt.mpr (le_of_lt hn)
  have h1n : 1 ≤ n.toNat := by omega
  refine ⟨chunkAux n.toNat S.length S, ?_,
    chunkAux_flatten n.toNat h1n S.length S le_rfl,
    chunkAux_dropLast n.toNat h1n S.length S le_rfl,
    chunkAux_chunks n.toNat h1n S.length S le_rfl, ?_⟩
  · unfold divide
    rw [if_neg hne, if_neg hnlt]
  · unfold divide
    rw [if_neg hne, if_neg hnlt]
    rfl

theorem claim_C6_witness :
    (0 : Int) < 2 ∧
    ∃ cs, divide ([1, 2, 3, 4, 5] : List Nat) 2 = some cs ∧
      cs.flatten = [1, 2, 3, 4, 5] ∧
      (∀ c ∈ cs.dropLast, c.length = (2 : Int).toNat) ∧
      (∀ c ∈ cs, c ≠ [] ∧ c.length ≤ (2 : Int).toNat) ∧
      divide ([] : List Nat) 2 = some [] :=
  ⟨by decide, claim_C6 [1, 2, 3, 4, 5] 2 (by decide)⟩

/-- C7 counterexample: `divide([1], -1)` does not raise — Python
`range(0, 1, -1)` is empty, so the generator yields no chunks and the call
returns the empty chunk sequence, contradicting the claim that every
size ≤ 0 raises. -/
theorem claim_C7_counterexample :
    divide ([1] : List Nat) (-1) = some [] ∧
    divide ([1] : List Nat) (-1) ≠ none := by
  exact ⟨by decide, by decide⟩

/-- C7 (amended): `divide` fails with `ValueError` exactly for chunk size
0; for every negative size it yields the empty chunk sequence (no chunks,
no error), because `range(0, len(lst), n)` with negative step and
non-negative stop is empty. -/
theorem claim_C7_amended {α : Type} (lst : List α) (n : Int) (_hn : n ≤ 0) :
    (n = 0 → divide lst n = none) ∧ (n < 0 → divide lst n = some []) := by
  constructor
  · intro h0
    unfold divide
    rw [if_pos h0]
  · intro hneg
    unfold divide
    rw [if_neg (by omega), if_pos hneg]

theorem claim_C7_amended_witness :
    ((0 : Int) ≤ 0 ∧ divide ([1, 2] : List Nat) 0 = none) ∧
    ((-3 : Int) ≤ 0 ∧ divide ([1, 2] : List Nat) (-3) = some []) :=
  ⟨⟨by decide, (claim_C7_amended [1, 2] 0 (by decide)).1 rfl⟩,
   ⟨by decide, (claim_C7_amended [1, 2] (-3) (by decide)).2 (by decide)⟩⟩

/-- C8: both `create_prices` implementations leave the catalog-identifier
list exactly as received (the loop body never mutates it) and emit records
only for snapshot rows whose code is in the catalog — nothing is emitted
for an unmatched catalog identifier. -/
theorem claim_C8 (ws : List Watch) (ids : List String) :
    ((Seller.create_prices ws ids).2 = ids ∧
      ∀ p ∈ (Seller.create_prices ws ids).1,
        p.offer_id ∈ ids ∧ ∃ w ∈ ws, w.kod = p.offer_id) ∧
    (∀ out rem, Market.create_prices ws ids = some (out, rem) →
      rem = ids ∧ ∀ p ∈ out, p.id ∈ ids ∧ ∃ w ∈ ws, w.kod = p.id) := by
  refine ⟨⟨sellerPrices_snd ws ids, sellerPrices_mem ws ids⟩,
    ?_⟩
  intro out rem h
  exact ⟨marketPrices_snd h, marketPrices_mem h⟩

theorem claim_C8_witness :
    Market.create_prices [⟨"A", "5", "9.5"⟩] ["A"] =
      some ([⟨"A", ⟨9, "RUR"⟩⟩], ["A"]) ∧
    ((["A"] : List String) = ["A"] ∧
      ∀ p ∈ ([⟨"A", ⟨9, "RUR"⟩⟩] : List Market.PriceM),
        p.id ∈ (["A"] : List String) ∧
        ∃ w ∈ ([⟨"A", "5", "9.5"⟩] : List Watch), w.kod = p.id) :=
  ⟨by decide,
    (claim_C8 [⟨"A", "5", "9.5"⟩] ["A"]).2 [⟨"A", ⟨9, "RUR"⟩⟩] ["A"]
      (by decide)⟩

theorem cumItems_cons_zero (p : PageS) (ps : List PageS) :
    cumItems (p :: ps) 0 = p.items.length := by
  simp [cumItems]

theorem cumItems_cons_succ (p : PageS) (ps : List PageS) (k : Nat) :
    cumItems (p :: ps) (k + 1) = p.items.length + cumItems ps k := by
  simp [cumItems, List.take_succ_cons]

theorem drainPages_spec : ∀ (pages : List PageS) (acc : List Product),
    (∃ k, k < pages.length ∧
      (pages.getD k ⟨[], 0, ""⟩).total = acc.length + cumItems pages k) →
    ∃ n, (n < pages.length ∧
        (pages.getD n ⟨[], 0, ""⟩).total = acc.length + cumItems pages n) ∧
      drainPages pages acc =
        some (acc ++ ((pages.take (n + 1)).map PageS.items).flatten) := by
  intro pages
  induction pages with
  | nil =>
      intro acc h
      obtain ⟨k, hk, _⟩ := h
      exact absurd hk (by simp)
  | cons p ps ih =>
      intro acc h
      obtain ⟨k, hk, htot⟩ := h
      by_cases hstop : p.total = (acc ++ p.items).length
      · refine ⟨0, ⟨by simp, ?_⟩, ?_⟩
        · rw [cumItems_cons_zero]
          rw [List.length_append] at hstop
          exact hstop
        · simp only [drainPages]
          rw [if_pos hstop]
          simp [List.take_succ_cons]
      · cases k with
        | zero =>
            exfalso
            apply hstop
            rw [List.length_append]
            rw [cumItems_cons_zero] at htot
            exact htot
        | succ k2 =>
            have hk2 : k2 < ps.length := by simpa using hk
            have htot2 : (ps.getD k2 ⟨[], 0, ""⟩).total =
                (acc ++ p.items).length + cumItems ps k2 := by
              rw [List.length_append]
              rw [cumItems_cons_succ] at htot
              have hgd : ((p :: ps).getD (k2 + 1) ⟨[], 0, ""⟩) =
                  ps.getD k2 ⟨[], 0, ""⟩ := rfl
              rw [hgd] at htot
              omega
            obtain ⟨n2, ⟨hn2lt, hn2tot⟩, hdrain⟩ :=
              ih (acc ++ p.items) ⟨k2, hk2, htot2⟩
            refine ⟨n2 + 1, ⟨by simpa using hn2lt, ?_⟩, ?_⟩
            · rw [cumItems_cons_succ]
              have hgd : ((p :: ps).getD (n2 + 1) ⟨[], 0, ""⟩) =
                  ps.getD n2 ⟨[], 0, ""⟩ := rfl
              rw [hgd, hn2tot, List.length_append]
              omega
            · simp only [drainPages]
              rw [if_neg hstop, hdrain]
              simp [List.take_succ_cons, List.append_assoc]

/-- C9: the count-based paginator of `seller.get_offer_ids` terminates for
every page stream on which the cumulative item count at some page equals
that page's reported `total`, stopping at such a page and returning the
`offer_id`s of all items fetched up to and including it, in fetch order. -/
theorem claim_C9 (pages : List PageS) (h : ∃ k, stopsAt pages k) :
    ∃ n, stopsAt pages n ∧
      get_offer_ids pages =
        some ((((pages.take (n + 1)).map PageS.items).flatten).map
          Product.offer_id) := by
  obtain ⟨k, hk⟩ := h
  unfold stopsAt at hk
  obtain ⟨hklt, hktot⟩ := hk
  obtain ⟨n, ⟨hnlt, hntot⟩, hdrain⟩ :=
    drainPages_spec pages [] ⟨k, hklt, by simpa using hktot⟩
  refine ⟨n, ?_, ?_⟩
  · unfold stopsAt
    exact ⟨hnlt, by simpa using hntot⟩
  · unfold get_offer_ids
    rw [hdrain]
    simp

theorem claim_C9_witness :
    (∃ k, stopsAt [⟨[⟨"a"⟩, ⟨"b"⟩], 3, "p1"⟩, ⟨[⟨"c"⟩], 3, "p2"⟩] k) ∧
    ∃ n, stopsAt [⟨[⟨"a"⟩, ⟨"b"⟩], 3, "p1"⟩, ⟨[⟨"c"⟩], 3, "p2"⟩] n ∧
      get_offer_ids [⟨[⟨"a"⟩, ⟨"b"⟩], 3, "p1"⟩, ⟨[⟨"c"⟩], 3, "p2"⟩] =
        some (((([⟨[⟨"a"⟩, ⟨"b"⟩], 3, "p1"⟩,
            ⟨[⟨"c"⟩], 3, "p2"⟩].take (n + 1)).map PageS.items).flatten).map
          Product.offer_id) :=
  ⟨⟨1, by unfold stopsAt; decide⟩,
    claim_C9 [⟨[⟨"a"⟩, ⟨"b"⟩], 3, "p1"⟩, ⟨[⟨"c"⟩], 3, "p2"⟩]
      ⟨1, by unfold stopsAt; decide⟩⟩

theorem Market.create_prices_fail : ∀ {ws : List Watch} {ids : List String}
    {w : Watch}, w ∈ ws → w.kod ∈ ids →
    pyInt? (price_conversion w.cena) = none →
    Market.create_prices ws ids = none := by
  intro ws
  induction ws with
  | nil =>
      intro ids w hw _ _
      exact absurd hw (List.not_mem_nil w)
  | cons v vs ih =>
      intro ids w hw hid hfail
      rcases List.mem_cons.mp hw with hhead | htail
      · subst hhead
        simp only [Market.create_prices, if_pos hid]
        rw [hfail]
        rfl
      · by_cases hvmem : v.kod ∈ ids
        · simp only [Market.create_prices, if_pos hvmem]
          rw [ih htail hid hfail]
          cases pyInt? (price_conversion v.cena) <;> rfl
        · simp only [Market.create_prices, if_neg hvmem]
          exact ih htail hid hfail

theorem Seller.create_prices_head_mem : ∀ {ws : List Watch}
    {ids : List String} {w : Watch}, w ∈ ws → w.kod ∈ ids →
    ∃ p ∈ (Seller.create_prices ws ids).1,
      p.offer_id = w.kod ∧ p.price = price_conversion w.cena := by
  intro ws
  induction ws with
  | nil =>
      intro ids w hw _
      exact absurd hw (List.not_mem_nil w)
  | cons v vs ih =>
      intro ids w hw hid
      rcases List.mem_cons.mp hw with hhead | htail
      · subst hhead
        simp only [Seller.create_prices, if_pos hid]
        exact ⟨⟨"UNKNOWN", "RUB", w.kod, "0", price_conversion w.cena⟩,
          List.mem_cons_self _ _, rfl, rfl⟩
      · by_cases hvmem : v.kod ∈ ids
        · simp only [Seller.create_prices, if_pos hvmem]
          obtain ⟨p, hp, h1, h2⟩ := ih htail hid
          exact ⟨p, List.mem_cons_of_mem _ hp, h1, h2⟩
        · simp only [Seller.create_prices, if_neg hvmem]
          exact ih htail hid

/-- C10: whenever a matched snapshot row's price text normalizes to the
empty string, the two marketplaces diverge: `market.create_prices` fails
(`int("")` raises), while `seller.create_prices` succeeds and emits a
record whose `price` field is the empty string. -/
theorem claim_C10 (ws : List Watch) (ids : List String) (w : Watch)
    (hw : w ∈ ws) (hid : w.kod ∈ ids)
    (hpc : price_conversion w.cena = "") :
    Market.create_prices ws ids = none ∧
    ∃ p ∈ (Seller.create_prices ws ids).1,
      p.offer_id = w.kod ∧ p.price = "" := by
  constructor
  · apply Market.create_prices_fail hw hid
    rw [hpc]
    rfl
  · obtain ⟨p, hp, h1, h2⟩ := Seller.create_prices_head_mem hw hid
    exact ⟨p, hp, h1, by rw [h2, hpc]⟩

theorem claim_C10_witness :
    (⟨"A", "5", "x"⟩ : Watch) ∈ ([⟨"A", "5", "x"⟩] : List Watch) ∧
    ("A" : String) ∈ (["A"] : List String) ∧
    price_conversion "x" = "" ∧
    (Market.create_prices [⟨"A", "5", "x"⟩] ["A"] = none ∧
      ∃ p ∈ (Seller.create_prices [⟨"A", "5", "x"⟩] ["A"]).1,
        p.offer_id = "A" ∧ p.price = "") :=
  ⟨by decide, by decide, by decide,
    claim_C10 [⟨"A", "5", "x"⟩] ["A"] ⟨"A", "5", "x"⟩ (by decide) (by decide)
      (by decide)⟩
